import Mathlib

/-!
Shallow embedding of the GitHub profile-card generator
(src/generate_profile.py) and proofs about its data computations:
the contribution-streak scan, the language aggregation / top-8
percentage ranking, the recent-events list, the AI-attribution tally,
and the placeholder path taken when no token is configured.

Network responses are passed explicitly: a fetcher that in Python
receives parsed JSON here receives the corresponding structured value,
with `Option` marking both a failed request (the broad `except` arms)
and missing keys (the `.get(..) or ..` chains).
-/

namespace Profile

/-- A contribution day, as one entry of `contributionDays`:
the ISO date string and the `contributionCount`. -/
abbrev Day := String × Nat

/-- One week of the contribution calendar (`weeks[i].contributionDays`). -/
abbrev Week := List Day

/-- One `languages.edges` entry of a repository node: language name and
byte size. -/
abbrev LangEdge := String × Nat

/-- One repository node of the GraphQL answer. -/
structure RepoNode where
  stargazerCount : Nat
  languages : List LangEdge
deriving DecidableEq

/-- The `repositories` object: `totalCount` plus the listed nodes. -/
structure Repositories where
  totalCount : Nat
  nodes : List RepoNode
deriving DecidableEq

/-- The `contributionCalendar` object. -/
structure Calendar where
  totalContributions : Nat
  weeks : List Week
deriving DecidableEq

/-- The `contributionsCollection` object. -/
structure ContributionsCollection where
  totalCommitContributions : Nat
  contributionCalendar : Option Calendar
deriving DecidableEq

/-- The `user` object of the GraphQL answer. Each field is `Option`al
because the Python code reads every level with `.get(..) or {}`. -/
structure User where
  repositories : Option Repositories
  followers : Option Nat
  contributionsCollection : Option ContributionsCollection
deriving DecidableEq

/-- The user value the code falls back to when `gql` returned `{}` or a
key is missing: every `.get` then yields its default. -/
def emptyUser : User := ⟨none, none, none⟩

/-- The record returned by `fetch_stats`. -/
structure Stats where
  repos : Nat
  stars : Nat
  followers : Nat
  commits : Nat
  streak : Nat
  total : Nat
  langs : List (String × ℚ)
  weeks : List Week
deriving DecidableEq

/-- The streak inner loop (`for d in reversed(w["contributionDays"])`),
given the already reversed list of day counts and the running streak.
Returns the updated streak and whether the loop exited via `break`:
a positive count increments the streak, a zero count breaks only when
the streak is already positive, and otherwise the scan just moves on. -/
def dayScan : List Nat → Nat → Nat × Bool
  | [], s => (s, false)
  | c :: rest, s =>
    if 0 < c then dayScan rest (s + 1)
    else if 0 < s then (s, true) else dayScan rest s

/-- The streak outer loop (`for w in reversed(weeks)`): the `for`-`else`
continues with the next week unless the inner loop broke, in which case
the outer loop also breaks. -/
def weekScan : List (List Nat) → Nat → Nat
  | [], s => s
  | w :: rest, s =>
    match dayScan w s with
    | (s1, true) => s1
    | (s1, false) => weekScan rest s1

/-- The streak computation of `fetch_stats` (lines 347 to 358): weeks are
visited newest first, and within a week the days newest first; only the
`contributionCount` field of a day is ever read. -/
def fetchStatsStreak (weeks : List Week) : Nat :=
  weekScan (weeks.reverse.map (fun w => (w.map Prod.snd).reverse)) 0

/-- Flattened day counts of a calendar, oldest first. -/
def calCounts (weeks : List Week) : List Nat :=
  weeks.flatten.map Prod.snd

/-- Specification-side trailing run: walking from the newest day
backwards, skip the zero-count days, then count the consecutive
positive-count days up to the next zero. -/
def trailingRun (counts : List Nat) : Nat :=
  ((counts.reverse.dropWhile (fun c => c == 0)).takeWhile (fun c => c != 0)).length

/-- Python dict accumulation `m[k] = m.get(k, 0) + v`, on an association
list that keeps keys in first-insertion order, as Python dicts do. -/
def addAssoc : List (String × Nat) → String → Nat → List (String × Nat)
  | [], name, v => [(name, v)]
  | (k, s) :: rest, name, v =>
    if k = name then (k, s + v) :: rest else (k, s) :: addAssoc rest name v

/-- The language edges of all repository nodes, in the order the two
nested loops of `fetch_stats` (lines 362 to 365) visit them. -/
def langEdges (nodes : List RepoNode) : List LangEdge :=
  (nodes.map RepoNode.languages).flatten

/-- Accumulate a list of edges into an insertion-ordered map. -/
def buildMap (es : List LangEdge) : List (String × Nat) :=
  es.foldl (fun m e => addAssoc m e.1 e.2) []

/-- The `lang_map` dict of `fetch_stats` after the two aggregation
loops. -/
def langMap (nodes : List RepoNode) : List (String × Nat) :=
  buildMap (langEdges nodes)

/-- The divisor `total = sum(lang_map.values()) or 1` of line 366:
the Python `or` replaces a zero sum by 1. -/
def langTotal (nodes : List RepoNode) : Nat :=
  let t := ((langMap nodes).map Prod.snd).sum
  if t = 0 then 1 else t

/-- The comparison realised by `sorted(.., key=lambda x: -x[1])`:
descending by size; Python sorting is stable, so ties keep their
original (first-insertion) order, which is exactly what a stable merge
sort with this comparison produces. -/
def langLe (a b : String × Nat) : Bool := decide (b.2 ≤ a.2)

/-- Line 367: sort the aggregated languages descending by size and keep
the first 8. -/
def sortedLangs (nodes : List RepoNode) : List (String × Nat) :=
  ((langMap nodes).mergeSort langLe).take 8

/-- Line 368: convert the kept languages to percentages of `total`.
Python computes in floating point; the embedding uses exact rationals. -/
def fetchStatsLangs (nodes : List RepoNode) : List (String × ℚ) :=
  (sortedLangs nodes).map (fun p => (p.1, (p.2 : ℚ) / (langTotal nodes : ℚ) * 100))

/-- The repository nodes `fetch_stats` works on, given the (possibly
failed) GraphQL answer. -/
def statsNodes (data : Option User) : List RepoNode :=
  ((data.getD emptyUser).repositories.getD ⟨0, []⟩).nodes

/-- The whole of `fetch_stats` (lines 320 to 374) after the GraphQL call:
`data` is `none` when `gql` raised and returned `{}` (every later `.get`
then yields its default). -/
def fetchStats (data : Option User) : Stats :=
  let u := data.getD emptyUser
  let reposData := u.repositories.getD ⟨0, []⟩
  let nodes := reposData.nodes
  let cc := u.contributionsCollection.getD ⟨0, none⟩
  let cal := cc.contributionCalendar.getD ⟨0, []⟩
  { repos := reposData.totalCount
    stars := (nodes.map RepoNode.stargazerCount).sum
    followers := u.followers.getD 0
    commits := cc.totalCommitContributions
    streak := fetchStatsStreak cal.weeks
    total := cal.totalContributions
    langs := fetchStatsLangs nodes
    weeks := cal.weeks }

/-- Specification-side grand total: the summed byte sizes of every
language edge in the input. -/
def grandTotal (nodes : List RepoNode) : Nat :=
  ((langEdges nodes).map Prod.snd).sum

/-- Summed sizes of the entries of a (String, size) list that carry the
given name. On a map with unique keys this is the stored value; on the
raw edge list it is the total size of that language. -/
def assocVal (m : List (String × Nat)) (n : String) : Nat :=
  ((m.filter (fun p => p.1 == n)).map Prod.snd).sum

/-- Specification-side summed size of one language across all
repositories. -/
def sumSizes (nodes : List RepoNode) (name : String) : Nat :=
  assocVal (langEdges nodes) name

/-- Names of a name list in order of first appearance, duplicates
dropped. -/
def dedupFirst (ns : List String) : List String :=
  ns.foldl (fun acc n => if n ∈ acc then acc else acc ++ [n]) []

/-- A nine-language input whose ninth language has size zero: the top-8
cut truncates a language, yet the kept percentages still sum to 100. -/
def nineLangs : List RepoNode :=
  [⟨0, [("a", 1), ("b", 1), ("c", 1), ("d", 1), ("e", 1), ("f", 1), ("g", 1), ("h", 1),
        ("i", 0)]⟩]

/-- One commit of a push event payload. -/
structure Commit where
  sha : String
  message : String
deriving DecidableEq

/-- One entry of the public events feed, with the fields the code
reads. -/
structure Event where
  type : String
  repoName : String
  commits : List Commit
  createdAt : String
deriving DecidableEq

/-- One row appended to `result` by `fetch_events`. -/
structure EventRow where
  sha : String
  repo : String
  msg : String
  ts : String
deriving DecidableEq

/-- Python slicing `s[:n]`: the first n code points. -/
def strTake (s : String) (n : Nat) : String :=
  String.mk (s.data.take n)

/-- Python `s.split("\n")[0]`: the prefix of the string up to the
first newline. -/
def firstLine (s : String) : String :=
  String.mk (s.data.takeWhile (fun c => c != '\n'))

/-- Python `s.split("/")[-1]`: the suffix of the string after the last
slash (the whole string when there is none). -/
def lastSegment (s : String) : String :=
  String.mk ((s.data.reverse.takeWhile (fun c => c != '/')).reverse)

/-- Python `s.lower()`, per code point. -/
def strLower (s : String) : String :=
  String.mk (s.data.map Char.toLower)

/-- Line 392: the repository name reduced to its final path segment,
`name.split("/")[-1]`. -/
def repoShort (name : String) : String :=
  lastSegment name

/-- Line 395: the commit message reduced to the first 44 characters of
its first line, `message.split("\n")[0][:44]`. -/
def msgShort (m : String) : String :=
  strTake (firstLine m) 44

/-- The whole of `fetch_events` (lines 376 to 398): `resp` is `none`
when the request raised. Otherwise visit the events in order, keep only
push events, emit one row per commit, and keep the first 5 rows. -/
def fetchEvents (resp : Option (List Event)) : List EventRow :=
  match resp with
  | none => []
  | some events =>
    ((events.filter (fun ev => ev.type == "PushEvent")).flatMap
      (fun ev => ev.commits.map (fun cm =>
        ⟨strTake cm.sha 7, repoShort ev.repoName, msgShort cm.message, ev.createdAt⟩))).take 5

/-- The `AI_NAMES` table, in its Python insertion order. -/
def aiNames : List (String × String) :=
  [("claude", "NAVI"), ("copilot", "TATL"), ("gpt", "TAEL"), ("gemini", "MIDNA"),
   ("cursor", "FI"), ("codeium", "EZLO"), ("tabnine", "CIELA")]

/-- Whether the needle occurs at the head of the haystack. -/
def startsWithChars : List Char → List Char → Bool
  | [], _ => true
  | _ :: _, [] => false
  | n :: ns, h :: hs => n == h && startsWithChars ns hs

/-- Python substring test `needle in hay` on code-point lists. -/
def containsChars : List Char → List Char → Bool
  | [], needle => needle.isEmpty
  | c :: rest, needle => startsWithChars needle (c :: rest) || containsChars rest needle

/-- Python substring test `sub in s`. -/
def containsSub (s sub : String) : Bool :=
  containsChars s.data sub.data

/-- The identification loop of `fetch_ai_ratio` (lines 426 to 434):
the first `AI_NAMES` keyword contained in the lowercased message names
the tool, and an unrecognized match falls back to NAVI. -/
def findAiName (msg : String) : String :=
  match aiNames.find? (fun p => containsSub (strLower msg) p.1) with
  | some p => p.2
  | none => "NAVI"

/-- The pattern loop of lines 421 to 435 increments `ai_count` once and
then breaks, so its effect only depends on whether any of the 3
`AI_PATTERNS` regexes matches. The regex engine itself is opaque to the
code; it enters the embedding as the predicate `reSearch i msg`, true
when `re.search(AI_PATTERNS[i], msg)` finds a match. -/
def commitMatches (reSearch : Nat → String → Bool) (msg : String) : Bool :=
  (List.range 3).any (fun i => reSearch i msg)

/-- The per-commit body of `fetch_ai_ratio`: count the commit, and on a
pattern match count it as AI and bump the identified tool. -/
def aiStep (reSearch : Nat → String → Bool) (acc : Nat × Nat × List (String × Nat))
    (cm : Commit) : Nat × Nat × List (String × Nat) :=
  if commitMatches reSearch cm.message then
    (acc.1 + 1, acc.2.1 + 1, addAssoc acc.2.2 (findAiName cm.message) 1)
  else
    (acc.1 + 1, acc.2.1, acc.2.2)

/-- The whole of `fetch_ai_ratio` (lines 400 to 436): `resp` is `none`
when the request raised, in which case the zero default `(0, 0, {})` is
returned. -/
def fetchAiRatio (reSearch : Nat → String → Bool) (resp : Option (List Event)) :
    Nat × Nat × List (String × Nat) :=
  match resp with
  | none => (0, 0, [])
  | some events =>
    events.foldl (fun acc ev =>
      if ev.type == "PushEvent" then ev.commits.foldl (aiStep reSearch) acc else acc)
      (0, 0, [])

/-- Specification-side list of all commits of all push events, in feed
order. -/
def pushCommits (events : List Event) : List Commit :=
  (events.filter (fun ev => ev.type == "PushEvent")).flatMap Event.commits

/-- Sum of the per-tool counts of a breakdown map. -/
def breakdownSum (m : List (String × Nat)) : Nat :=
  (m.map Prod.snd).sum

/-- The hero share of `svg_party` (line 829):
`((total - ai_count) / total * 100) if total > 0 else 100`. -/
def svgPartyHeroPct (total aiCount : Nat) : ℚ :=
  if 0 < total then ((total : ℚ) - (aiCount : ℚ)) / (total : ℚ) * 100 else 100

/-- The AI share of `svg_party` (line 830):
`(ai_count / total * 100) if total > 0 else 0`. -/
def svgPartyAiPct (total aiCount : Nat) : ℚ :=
  if 0 < total then (aiCount : ℚ) / (total : ℚ) * 100 else 0

/-- The placeholder language list of `main` (lines 934 to 935). -/
def placeholderLangs : List (String × ℚ) :=
  [("Python", 452 / 10), ("TypeScript", 231 / 10), ("Rust", 124 / 10),
   ("Go", 87 / 10), ("Shell", 62 / 10), ("HTML", 44 / 10)]

/-- The seven placeholder dates `2025-01-{d+1:02d}` of line 937. -/
def placeholderDates : List String :=
  ["2025-01-01", "2025-01-02", "2025-01-03", "2025-01-04",
   "2025-01-05", "2025-01-06", "2025-01-07"]

/-- The placeholder calendar of lines 936 to 939: 26 weeks of 7 days,
the counts drawn in order from the module-level generator, which line 24
seeded with the constant 42. The draw stream `rng` abstracts the
successive `random.randint(0, 12)` results of that seeded generator. -/
def placeholderWeeks (rng : Nat → Nat) : List Week :=
  (List.range 26).map (fun w =>
    (List.range 7).map (fun d => (placeholderDates.getD d "", rng (w * 7 + d))))

/-- The placeholder stats record of lines 931 to 940. -/
def placeholderStats (rng : Nat → Nat) : Stats :=
  { repos := 42, stars := 89, followers := 15, commits := 1234, streak := 28,
    total := 1500, langs := placeholderLangs, weeks := placeholderWeeks rng }

/-- The placeholder event rows of lines 941 to 947. -/
def placeholderEvents : List EventRow :=
  [⟨"a1b2c3f", "bigmacfive", "feat: add zelda dashboard theme", "2025-01-15T10:00:00Z"⟩,
   ⟨"d4e5f6a", "dotfiles", "fix: update shell aliases", "2025-01-14T08:00:00Z"⟩,
   ⟨"g7h8i9j", "api-server", "refactor: clean up middleware", "2025-01-13T06:00:00Z"⟩,
   ⟨"k0l1m2n", "bigmacfive", "chore: update dependencies", "2025-01-12T12:00:00Z"⟩,
   ⟨"o3p4q5r", "webapp", "feat: implement dark mode toggle", "2025-01-11T15:00:00Z"⟩]

/-- The placeholder AI tally of line 948. -/
def placeholderAi : Nat × Nat × List (String × Nat) :=
  (100, 35, [("NAVI", 30), ("TATL", 5)])

/-- Everything the three fetchers would deliver over the network. -/
structure NetData where
  stats : Stats
  events : List EventRow
  ai : Nat × Nat × List (String × Nat)
deriving DecidableEq

/-- The data-selection step of `main` (lines 925 to 948): with a falsy
(empty) token the placeholder branch runs and the network thunk is
never forced; with a token the three fetchers are called. -/
def mainData (token : String) (net : Unit → NetData) (rng : Nat → Nat) :
    Stats × List EventRow × (Nat × Nat × List (String × Nat)) :=
  if token = "" then
    (placeholderStats rng, placeholderEvents, placeholderAi)
  else
    ((net ()).stats, (net ()).events, (net ()).ai)

/-! ## Streak lemmas -/

theorem dayScan_append (a b : List Nat) (s : Nat) :
    dayScan (a ++ b) s =
      match dayScan a s with
      | (s1, true) => (s1, true)
      | (s1, false) => dayScan b s1 := by
  induction a generalizing s with
  | nil => simp [dayScan]
  | cons c rest ih =>
    by_cases hc : 0 < c
    · simp [dayScan, hc, ih]
    · by_cases hs : 0 < s <;> simp [dayScan, hc, hs, ih]

theorem weekScan_flatten (ws : List (List Nat)) (s : Nat) :
    weekScan ws s = (dayScan ws.flatten s).1 := by
  induction ws generalizing s with
  | nil => simp [weekScan, dayScan]
  | cons w rest ih =>
    rw [weekScan, List.flatten_cons, dayScan_append]
    cases h : dayScan w s with
    | mk s1 b => cases b <;> simp [ih]

theorem dayScan_pos (l : List Nat) (s : Nat) (hs : 0 < s) :
    (dayScan l s).1 = s + (l.takeWhile (fun c => c != 0)).length := by
  induction l generalizing s with
  | nil => simp [dayScan]
  | cons c rest ih =>
    by_cases hc : 0 < c
    · have hcb : (c != 0) = true := by simp; omega
      rw [dayScan, if_pos hc, List.takeWhile_cons, hcb, ih (s + 1) (by omega)]
      simp; omega
    · have hc0 : c = 0 := by omega
      simp [dayScan, hc0, hs]

theorem dayScan_zero (l : List Nat) :
    (dayScan l 0).1 =
      ((l.dropWhile (fun c => c == 0)).takeWhile (fun c => c != 0)).length := by
  induction l with
  | nil => simp [dayScan]
  | cons c rest ih =>
    by_cases hc : 0 < c
    · have hcb : (c == 0) = false := by simp; omega
      have hcb2 : (c != 0) = true := by simp; omega
      have h1 : List.dropWhile (fun c => c == 0) (c :: rest) = c :: rest := by
        simp [List.dropWhile_cons, hcb]
      have h2 : List.takeWhile (fun c => c != 0) (c :: rest)
          = c :: List.takeWhile (fun c => c != 0) rest := by
        simp [List.takeWhile_cons, hcb2]
      rw [dayScan, if_pos hc, h1, h2, dayScan_pos rest 1 (by omega)]
      simp
      omega
    · have hc0 : c = 0 := by omega
      simp [dayScan, hc0, ih]

theorem streak_flatten_reversed (weeks : List Week) :
    (weeks.reverse.map (fun w => (w.map Prod.snd).reverse)).flatten
      = (weeks.flatten.map Prod.snd).reverse := by
  rw [List.map_flatten, List.reverse_flatten]
  congr 1
  rw [List.map_map, List.map_reverse]
  rfl

/-- The streak the code computes is the trailing positive run of the
flattened day counts, after skipping the zero-count days at the very
end; the date strings are never consulted. -/
theorem streak_eq_trailingRun (weeks : List Week) :
    fetchStatsStreak weeks = trailingRun (calCounts weeks) := by
  rw [fetchStatsStreak, trailingRun, calCounts, weekScan_flatten,
    streak_flatten_reversed, dayScan_zero]

/-! ## Aggregation lemmas -/

theorem mapFst_addAssoc (m : List (String × Nat)) (k : String) (v : Nat) :
    (addAssoc m k v).map Prod.fst =
      if k ∈ m.map Prod.fst then m.map Prod.fst else m.map Prod.fst ++ [k] := by
  induction m with
  | nil => simp [addAssoc]
  | cons p rest ih =>
    cases p with
    | mk k1 s1 =>
      by_cases h : k1 = k
      · simp [addAssoc, h]
      · rw [addAssoc, if_neg h]
        simp only [List.map_cons, ih]
        by_cases h2 : k ∈ rest.map Prod.fst <;>
          simp [h2, List.mem_cons, Ne.symm h]

theorem sumSnd_addAssoc (m : List (String × Nat)) (k : String) (v : Nat) :
    ((addAssoc m k v).map Prod.snd).sum = (m.map Prod.snd).sum + v := by
  induction m with
  | nil => simp [addAssoc]
  | cons p rest ih =>
    cases p with
    | mk k1 s1 =>
      by_cases h : k1 = k
      · simp [addAssoc, h]
        omega
      · rw [addAssoc, if_neg h]
        simp [ih]
        omega

theorem assocVal_cons (k1 : String) (s1 : Nat) (rest : List (String × Nat)) (n : String) :
    assocVal ((k1, s1) :: rest) n = (if k1 = n then s1 else 0) + assocVal rest n := by
  by_cases h : k1 = n <;> simp [assocVal, List.filter_cons, h]

theorem assocVal_addAssoc (m : List (String × Nat)) (k : String) (v : Nat) (n : String) :
    assocVal (addAssoc m k v) n = assocVal m n + (if k = n then v else 0) := by
  induction m with
  | nil =>
    by_cases h : k = n <;> simp [addAssoc, assocVal, h]
  | cons p rest ih =>
    cases p with
    | mk k1 s1 =>
      by_cases h : k1 = k
      · subst h
        rw [addAssoc, if_pos rfl, assocVal_cons, assocVal_cons]
        by_cases hn : k1 = n <;> simp [hn] <;> omega
      · rw [addAssoc, if_neg h, assocVal_cons, assocVal_cons, ih]
        omega

theorem assocVal_foldAdd (es : List LangEdge) (m : List (String × Nat)) (n : String) :
    assocVal (es.foldl (fun m e => addAssoc m e.1 e.2) m) n
      = assocVal m n + assocVal es n := by
  induction es generalizing m with
  | nil => simp [assocVal]
  | cons e rest ih =>
    rw [List.foldl_cons, ih, assocVal_addAssoc]
    by_cases h : e.1 = n <;>
      simp [assocVal, List.filter_cons, h] <;> omega

theorem sumSnd_foldAdd (es : List LangEdge) (m : List (String × Nat)) :
    (((es.foldl (fun m e => addAssoc m e.1 e.2) m).map Prod.snd).sum
      = (m.map Prod.snd).sum + (es.map Prod.snd).sum) := by
  induction es generalizing m with
  | nil => simp
  | cons e rest ih =>
    rw [List.foldl_cons, ih, sumSnd_addAssoc]
    simp
    omega

theorem mapFst_foldAdd (es : List LangEdge) (m : List (String × Nat)) :
    (es.foldl (fun m e => addAssoc m e.1 e.2) m).map Prod.fst
      = (es.map Prod.fst).foldl (fun acc n => if n ∈ acc then acc else acc ++ [n])
          (m.map Prod.fst) := by
  induction es generalizing m with
  | nil => simp
  | cons e rest ih =>
    rw [List.foldl_cons, ih, List.map_cons, List.foldl_cons, mapFst_addAssoc]

theorem mapFst_buildMap (es : List LangEdge) :
    (buildMap es).map Prod.fst = dedupFirst (es.map Prod.fst) := by
  rw [buildMap, mapFst_foldAdd, dedupFirst]
  rfl

theorem dedupFirst_go_nodup (ns : List String) (acc : List String) (h : acc.Nodup) :
    (ns.foldl (fun acc n => if n ∈ acc then acc else acc ++ [n]) acc).Nodup := by
  induction ns generalizing acc with
  | nil => simpa
  | cons n rest ih =>
    rw [List.foldl_cons]
    by_cases hn : n ∈ acc
    · rw [if_pos hn]
      exact ih acc h
    · rw [if_neg hn]
      refine ih _ ?_
      simp [List.nodup_append, h, hn]

theorem dedupFirst_nodup (ns : List String) : (dedupFirst ns).Nodup :=
  dedupFirst_go_nodup ns [] List.nodup_nil

theorem mem_dedupFirst_go (ns : List String) (acc : List String) (n : String) :
    n ∈ ns.foldl (fun acc n => if n ∈ acc then acc else acc ++ [n]) acc
      ↔ n ∈ acc ∨ n ∈ ns := by
  induction ns generalizing acc with
  | nil => simp
  | cons x rest ih =>
    rw [List.foldl_cons]
    by_cases hx : x ∈ acc
    · rw [if_pos hx, ih]
      constructor
      · rintro (h | h)
        · exact Or.inl h
        · exact Or.inr (List.mem_cons_of_mem x h)
      · rintro (h | h)
        · exact Or.inl h
        · rcases List.mem_cons.mp h with h | h
          · exact Or.inl (h ▸ hx)
          · exact Or.inr h
    · rw [if_neg hx, ih]
      simp [List.mem_append, List.mem_cons]
      tauto

theorem mem_dedupFirst (ns : List String) (n : String) :
    n ∈ dedupFirst ns ↔ n ∈ ns := by
  rw [dedupFirst, mem_dedupFirst_go]
  simp

theorem buildMap_keys_nodup (es : List LangEdge) :
    ((buildMap es).map Prod.fst).Nodup := by
  rw [mapFst_buildMap]
  exact dedupFirst_nodup _

theorem mem_keys_buildMap (es : List LangEdge) (n : String) :
    n ∈ (buildMap es).map Prod.fst ↔ n ∈ es.map Prod.fst := by
  rw [mapFst_buildMap, mem_dedupFirst]

theorem assocVal_buildMap (es : List LangEdge) (n : String) :
    assocVal (buildMap es) n = assocVal es n := by
  have := assocVal_foldAdd es [] n
  simpa [buildMap, assocVal] using this

theorem sumSnd_buildMap (es : List LangEdge) :
    ((buildMap es).map Prod.snd).sum = (es.map Prod.snd).sum := by
  have := sumSnd_foldAdd es []
  simpa [buildMap] using this

theorem filter_key_of_nodup (m : List (String × Nat))
    (h : (m.map Prod.fst).Nodup) (p : String × Nat) (hp : p ∈ m) :
    m.filter (fun q => q.1 == p.1) = [p] := by
  induction m with
  | nil => cases hp
  | cons a rest ih =>
    rcases List.mem_cons.mp hp with rfl | hp2
    · have hnot : ∀ q ∈ rest, ¬(q.1 == p.1) = true := by
        intro q hq
        have : p.1 ∉ rest.map Prod.fst := (List.nodup_cons.mp (by simpa using h)).1
        simp only [beq_iff_eq]
        intro hqe
        exact this (hqe ▸ List.mem_map_of_mem Prod.fst hq)
      rw [List.filter_cons]
      simp only [beq_self_eq_true, if_pos]
      rw [List.filter_eq_nil_iff.mpr hnot]
    · have ha : a.1 ≠ p.1 := by
        have h1 : a.1 ∉ rest.map Prod.fst := (List.nodup_cons.mp (by simpa using h)).1
        intro he
        exact h1 (he ▸ List.mem_map_of_mem Prod.fst hp2)
      rw [List.filter_cons]
      have : (a.1 == p.1) = false := by simpa using ha
      rw [this]
      simp only [Bool.false_eq_true, if_false]
      exact ih (List.nodup_cons.mp (by simpa using h)).2 hp2

theorem snd_eq_assocVal_of_mem (m : List (String × Nat))
    (h : (m.map Prod.fst).Nodup) (p : String × Nat) (hp : p ∈ m) :
    p.2 = assocVal m p.1 := by
  rw [assocVal, filter_key_of_nodup m h p hp]
  simp

theorem mem_buildMap_val (es : List LangEdge) (p : String × Nat)
    (hp : p ∈ buildMap es) : p.2 = assocVal es p.1 := by
  rw [snd_eq_assocVal_of_mem (buildMap es) (buildMap_keys_nodup es) p hp,
    assocVal_buildMap]

/-! ## Sorting lemmas -/

theorem langLe_trans : ∀ a b c : String × Nat, langLe a b → langLe b c → langLe a c := by
  intro a b c h1 h2
  simp only [langLe, decide_eq_true_eq] at *
  omega

theorem langLe_total : ∀ a b : String × Nat, langLe a b || langLe b a := by
  intro a b
  simp only [langLe]
  by_cases h : b.2 ≤ a.2 <;> simp [h] <;> omega

theorem langTotal_pos (nodes : List RepoNode) : 0 < langTotal nodes := by
  simp only [langTotal]
  split <;> omega

theorem langTotal_of_pos (nodes : List RepoNode) (h : 0 < grandTotal nodes) :
    langTotal nodes = grandTotal nodes := by
  have hsum : ((langMap nodes).map Prod.snd).sum = grandTotal nodes :=
    sumSnd_buildMap (langEdges nodes)
  simp only [langTotal, hsum]
  rw [if_neg (by omega)]

theorem sorted_sum_eq (nodes : List RepoNode) :
    (((langMap nodes).mergeSort langLe).map Prod.snd).sum = grandTotal nodes := by
  rw [List.Perm.sum_eq (List.Perm.map Prod.snd (List.mergeSort_perm (langMap nodes) langLe))]
  exact sumSnd_buildMap _

theorem grandTotal_sum_split (nodes : List RepoNode) :
    ((sortedLangs nodes).map Prod.snd).sum
      + ((((langMap nodes).mergeSort langLe).drop 8).map Prod.snd).sum
      = grandTotal nodes := by
  rw [sortedLangs, ← sorted_sum_eq nodes]
  conv_rhs => rw [← List.take_append_drop 8 ((langMap nodes).mergeSort langLe)]
  rw [List.map_append, List.sum_append]

theorem mapFst_fetchStatsLangs (nodes : List RepoNode) :
    (fetchStatsLangs nodes).map Prod.fst = (sortedLangs nodes).map Prod.fst := by
  rw [fetchStatsLangs, List.map_map]
  rfl

theorem output_entry (nodes : List RepoNode) (p : String × ℚ)
    (hp : p ∈ fetchStatsLangs nodes) :
    ∃ q ∈ sortedLangs nodes,
      p = (q.1, (q.2 : ℚ) / (langTotal nodes : ℚ) * 100) ∧ q.2 = sumSizes nodes q.1
        ∧ q.1 ∈ (langEdges nodes).map Prod.fst := by
  rcases List.mem_map.mp hp with ⟨q, hq, rfl⟩
  have hq2 := hq
  rw [sortedLangs] at hq2
  have hqL : q ∈ langMap nodes := by
    have hS : q ∈ (langMap nodes).mergeSort langLe := List.mem_of_mem_take hq2
    rwa [(List.mergeSort_perm _ _).mem_iff] at hS
  refine ⟨q, hq, rfl, mem_buildMap_val _ _ hqL, ?_⟩
  exact (mem_keys_buildMap _ _).mp (List.mem_map_of_mem Prod.fst hqL)

theorem entry_in_drop (nodes : List RepoNode) (name : String)
    (h1 : name ∈ (langEdges nodes).map Prod.fst)
    (h2 : name ∉ (fetchStatsLangs nodes).map Prod.fst) :
    ∃ q ∈ ((langMap nodes).mergeSort langLe).drop 8,
      q.1 = name ∧ q.2 = sumSizes nodes name := by
  have hkeys : name ∈ (langMap nodes).map Prod.fst := (mem_keys_buildMap _ _).mpr h1
  rcases List.mem_map.mp hkeys with ⟨q, hq, hqf⟩
  have hqS : q ∈ (langMap nodes).mergeSort langLe := by
    rw [(List.mergeSort_perm (langMap nodes) langLe).mem_iff]
    exact hq
  have hval : q.2 = sumSizes nodes name := by
    rw [mem_buildMap_val (langEdges nodes) q hq, ← hqf]
    rfl
  have hnotTake : q ∉ ((langMap nodes).mergeSort langLe).take 8 := by
    intro hmem
    apply h2
    rw [mapFst_fetchStatsLangs, sortedLangs]
    exact hqf ▸ List.mem_map_of_mem Prod.fst hmem
  have hsplit : q ∈ ((langMap nodes).mergeSort langLe).take 8
      ++ ((langMap nodes).mergeSort langLe).drop 8 := by
    rw [List.take_append_drop]
    exact hqS
  rcases List.mem_append.mp hsplit with hmem | hmem
  · exact absurd hmem hnotTake
  · exact ⟨q, hmem, hqf, hval⟩

theorem sorted_pairwise_split (nodes : List RepoNode) (q r : String × Nat)
    (hq : q ∈ sortedLangs nodes)
    (hr : r ∈ ((langMap nodes).mergeSort langLe).drop 8) :
    r.2 ≤ q.2 := by
  have hP : ((langMap nodes).mergeSort langLe).Pairwise (fun a b => langLe a b = true) :=
    List.sorted_mergeSort langLe_trans langLe_total _
  have hP2 : (((langMap nodes).mergeSort langLe).take 8
      ++ ((langMap nodes).mergeSort langLe).drop 8).Pairwise (fun a b => langLe a b = true) := by
    rw [List.take_append_drop]
    exact hP
  have hq2 : q ∈ ((langMap nodes).mergeSort langLe).take 8 := by rwa [sortedLangs] at hq
  have := (List.pairwise_append.mp hP2).2.2 q hq2 r hr
  simpa [langLe] using this

/-! ## Claim C2 -/

/-- C2: for every input set of (language, byte-size) pairs with a
meaningful (positive) grand total, `fetch_stats` reports each language
percentage as its summed size divided by the grand total times 100, the
list is sorted in descending order, every reported language comes from
the input, the list has at most 8 entries, and every language left out
is no larger than any language kept. -/
theorem c2_langs_top8 (nodes : List RepoNode) (h : 0 < grandTotal nodes) :
    (fetchStatsLangs nodes).length ≤ 8 ∧
    (∀ p ∈ fetchStatsLangs nodes,
      p.2 = (sumSizes nodes p.1 : ℚ) / (grandTotal nodes : ℚ) * 100 ∧
      p.1 ∈ (langEdges nodes).map Prod.fst) ∧
    (fetchStatsLangs nodes).Pairwise (fun a b => b.2 ≤ a.2) ∧
    (∀ name ∈ (langEdges nodes).map Prod.fst,
      name ∉ (fetchStatsLangs nodes).map Prod.fst →
      ∀ p ∈ fetchStatsLangs nodes, sumSizes nodes name ≤ sumSizes nodes p.1) := by
  refine ⟨?_, ?_, ?_, ?_⟩
  · rw [fetchStatsLangs, List.length_map, sortedLangs]
    exact List.length_take_le _ _
  · intro p hp
    rcases output_entry nodes p hp with ⟨q, hq, rfl, hval, hnames⟩
    refine ⟨?_, hnames⟩
    simp only
    rw [hval, langTotal_of_pos nodes h]
  · have hP : ((langMap nodes).mergeSort langLe).Pairwise (fun a b => langLe a b = true) :=
      List.sorted_mergeSort langLe_trans langLe_total _
    have hPt : (sortedLangs nodes).Pairwise (fun a b => langLe a b = true) := by
      rw [sortedLangs]
      exact List.Pairwise.sublist (List.take_sublist _ _) hP
    rw [fetchStatsLangs, List.pairwise_map]
    refine hPt.imp ?_
    intro a b hab
    simp only [langLe, decide_eq_true_eq] at hab
    have hT : (0 : ℚ) < (langTotal nodes : ℚ) := by exact_mod_cast langTotal_pos nodes
    have hcast : (b.2 : ℚ) ≤ (a.2 : ℚ) := by exact_mod_cast hab
    exact mul_le_mul_of_nonneg_right ((div_le_div_right hT).mpr hcast) (by norm_num)
  · intro name hname hnot p hp
    rcases output_entry nodes p hp with ⟨q, hq, rfl, hval, _⟩
    rcases entry_in_drop nodes name hname hnot with ⟨r, hr, hrf, hrval⟩
    have hle := sorted_pairwise_split nodes q r hq hr
    simp only
    rw [← hval, ← hrval]
    exact hle

/-- Witness for C2 at a concrete two-language input. -/
theorem c2_langs_top8_witness :
    0 < grandTotal [⟨0, [("Py", 30), ("TS", 10)]⟩] ∧
    (fetchStatsLangs [⟨0, [("Py", 30), ("TS", 10)]⟩]).length ≤ 8 :=
  ⟨by decide, (c2_langs_top8 [⟨0, [("Py", 30), ("TS", 10)]⟩] (by decide)).1⟩

/-! ## Claim C5 -/

theorem sum_pcts (l : List (String × Nat)) (T : ℚ) :
    ((l.map (fun p => (p.1, (p.2 : ℚ) / T * 100))).map Prod.snd).sum
      = ((l.map Prod.snd).sum : ℚ) / T * 100 := by
  induction l with
  | nil => simp
  | cons p rest ih =>
    simp only [List.map_cons, List.sum_cons, ih]
    push_cast
    ring

/-- C5 (amended): the reported percentages always sum to at most 100,
and they sum to exactly 100 only when every language truncated away by
the top-8 cut has zero total size. -/
theorem c5_pct_sum (nodes : List RepoNode) :
    ((fetchStatsLangs nodes).map Prod.snd).sum ≤ 100 ∧
    (((fetchStatsLangs nodes).map Prod.snd).sum = 100 →
      ∀ name ∈ (langEdges nodes).map Prod.fst,
        name ∉ (fetchStatsLangs nodes).map Prod.fst → sumSizes nodes name = 0) := by
  have hsum : ((fetchStatsLangs nodes).map Prod.snd).sum
      = (((sortedLangs nodes).map Prod.snd).sum : ℚ) / (langTotal nodes : ℚ) * 100 := by
    rw [fetchStatsLangs, sum_pcts]
  have hsplit := grandTotal_sum_split nodes
  by_cases hg : grandTotal nodes = 0
  · have hkept : ((sortedLangs nodes).map Prod.snd).sum = 0 := by omega
    constructor
    · rw [hsum, hkept]
      norm_num
    · intro habs
      rw [hsum, hkept] at habs
      norm_num at habs
  · have hgpos : 0 < grandTotal nodes := Nat.pos_of_ne_zero hg
    have hT : langTotal nodes = grandTotal nodes := langTotal_of_pos nodes hgpos
    have hTpos : (0 : ℚ) < (grandTotal nodes : ℚ) := by exact_mod_cast hgpos
    constructor
    · rw [hsum, hT]
      have hle : (((sortedLangs nodes).map Prod.snd).sum : ℚ) ≤ (grandTotal nodes : ℚ) := by
        exact_mod_cast (by omega : ((sortedLangs nodes).map Prod.snd).sum ≤ grandTotal nodes)
      calc (((sortedLangs nodes).map Prod.snd).sum : ℚ) / (grandTotal nodes : ℚ) * 100
          ≤ 1 * 100 :=
            mul_le_mul_of_nonneg_right ((div_le_one hTpos).mpr hle) (by norm_num)
        _ = 100 := by norm_num
    · intro h100 name hname hnot
      rw [hsum, hT] at h100
      have hne : (grandTotal nodes : ℚ) ≠ 0 := ne_of_gt hTpos
      have hkg : (((sortedLangs nodes).map Prod.snd).sum : ℚ) = (grandTotal nodes : ℚ) := by
        rw [div_mul_eq_mul_div, div_eq_iff hne] at h100
        linarith
      have hkeq : ((sortedLangs nodes).map Prod.snd).sum = grandTotal nodes := by
        exact_mod_cast hkg
      have hdrop0 : ((((langMap nodes).mergeSort langLe).drop 8).map Prod.snd).sum = 0 := by
        omega
      rcases entry_in_drop nodes name hname hnot with ⟨r, hr, hrf, hrval⟩
      have hmem : r.2 ∈ (((langMap nodes).mergeSort langLe).drop 8).map Prod.snd :=
        List.mem_map_of_mem Prod.snd hr
      have hr0 : r.2 = 0 := List.sum_eq_zero_iff.mp hdrop0 r.2 hmem
      rw [← hrval]
      exact hr0

theorem nineLangs_sortedLangs :
    sortedLangs nineLangs
      = [("a", 1), ("b", 1), ("c", 1), ("d", 1), ("e", 1), ("f", 1), ("g", 1), ("h", 1)] := by
  rw [sortedLangs, List.mergeSort_of_sorted (by decide)]
  decide

theorem nineLangs_sum : ((fetchStatsLangs nineLangs).map Prod.snd).sum = 100 := by
  have ht : langTotal nineLangs = 8 := by decide
  rw [fetchStatsLangs, nineLangs_sortedLangs, ht]
  norm_num

theorem nineLangs_notMem : "i" ∉ (fetchStatsLangs nineLangs).map Prod.fst := by
  rw [mapFst_fetchStatsLangs, nineLangs_sortedLangs]
  decide

/-- Counterexample to C5 as stated: with nine languages of which the
ninth has zero bytes, a language is truncated away by the top-8 cut but
the kept percentages still sum to exactly 100. -/
theorem c5_counterexample :
    ((fetchStatsLangs nineLangs).map Prod.snd).sum = 100 ∧
    (langMap nineLangs).length = 9 ∧
    "i" ∈ (langEdges nineLangs).map Prod.fst ∧
    "i" ∉ (fetchStatsLangs nineLangs).map Prod.fst :=
  ⟨nineLangs_sum, by decide, by decide, nineLangs_notMem⟩

/-- Witness for C5: the amended theorem applied at the nine-language
input, discharging the sum-equals-100 antecedent there. -/
theorem c5_pct_sum_witness :
    ((fetchStatsLangs nineLangs).map Prod.snd).sum ≤ 100 ∧
    sumSizes nineLangs "i" = 0 :=
  ⟨(c5_pct_sum nineLangs).1,
   (c5_pct_sum nineLangs).2 nineLangs_sum "i" (by decide) nineLangs_notMem⟩

/-! ## Claim C6 -/

theorem pair_sublist_of_append {α : Type} (xs ys : List α) (a b : α)
    (hnd : (xs ++ ys).Nodup) (h : [a, b].Sublist (xs ++ ys))
    (ha : a ∈ xs) (hb : b ∈ xs) : [a, b].Sublist xs := by
  rcases List.sublist_append_iff.mp h with ⟨l1, l2, heq, hs1, hs2⟩
  have hdisj := List.disjoint_of_nodup_append hnd
  cases l1 with
  | nil =>
    simp only [List.nil_append] at heq
    rw [← heq] at hs2
    exact absurd (hs2.mem (by simp)) (fun hy => hdisj ha hy)
  | cons x l1a =>
    cases l1a with
    | nil =>
      simp only [List.cons_append, List.nil_append, List.cons.injEq] at heq
      obtain ⟨rfl, heq2⟩ := heq
      rw [← heq2] at hs2
      exact absurd (hs2.mem (by simp)) (fun hy => hdisj hb hy)
    | cons y l1b =>
      cases l1b with
      | nil =>
        simp only [List.cons_append, List.nil_append, List.cons.injEq] at heq
        obtain ⟨rfl, rfl, -⟩ := heq
        exact hs1
      | cons z t =>
        have hlen := congrArg List.length heq
        simp at hlen

/-- C6: two languages with equal summed sizes keep their order of first
appearance through the descending sort and the top-8 cut. The order of
first appearance in the flattened edge list is the key order of
`dedupFirst`; appearing in that order plus equal sizes forces the same
order among the reported languages. -/
theorem c6_sort_stable (nodes : List RepoNode) (n1 n2 : String)
    (horder : [n1, n2].Sublist (dedupFirst ((langEdges nodes).map Prod.fst)))
    (hsz : sumSizes nodes n1 = sumSizes nodes n2)
    (h1 : n1 ∈ (fetchStatsLangs nodes).map Prod.fst)
    (h2 : n2 ∈ (fetchStatsLangs nodes).map Prod.fst) :
    [n1, n2].Sublist ((fetchStatsLangs nodes).map Prod.fst) := by
  have hkeys : [n1, n2].Sublist ((langMap nodes).map Prod.fst) := by
    rw [langMap, mapFst_buildMap]
    exact horder
  rcases List.sublist_map_iff.mp hkeys with ⟨l2, hl2, heq⟩
  cases l2 with
  | nil => simp at heq
  | cons p1 l2a =>
    cases l2a with
    | nil => simp at heq
    | cons p2 l2b =>
      cases l2b with
      | cons p3 l2c => simp at heq
      | nil =>
        simp only [List.map_cons, List.map_nil, List.cons.injEq, and_true] at heq
        obtain ⟨hn1, hn2⟩ := heq
        have hp1 : p1 ∈ langMap nodes := hl2.mem (by simp)
        have hp2 : p2 ∈ langMap nodes := hl2.mem (by simp)
        have hv1 : p1.2 = sumSizes nodes n1 := by
          rw [mem_buildMap_val _ _ hp1, ← hn1]
          rfl
        have hv2 : p2.2 = sumSizes nodes n2 := by
          rw [mem_buildMap_val _ _ hp2, ← hn2]
          rfl
        have hle : langLe p1 p2 = true := by
          simp only [langLe, decide_eq_true_eq]
          omega
        have hS : [p1, p2].Sublist ((langMap nodes).mergeSort langLe) :=
          List.pair_sublist_mergeSort langLe_trans langLe_total hle hl2
        have hSf : [n1, n2].Sublist (((langMap nodes).mergeSort langLe).map Prod.fst) := by
          have hm := hS.map Prod.fst
          rw [List.map_cons, List.map_cons, List.map_nil, ← hn1, ← hn2] at hm
          exact hm
        have hnd : (((langMap nodes).mergeSort langLe).map Prod.fst).Nodup := by
          have hperm : List.Perm (((langMap nodes).mergeSort langLe).map Prod.fst)
              ((langMap nodes).map Prod.fst) :=
            (List.mergeSort_perm _ _).map Prod.fst
          exact hperm.nodup_iff.mpr (buildMap_keys_nodup _)
        have hsplitEq : ((langMap nodes).mergeSort langLe).map Prod.fst
            = (((langMap nodes).mergeSort langLe).take 8).map Prod.fst
              ++ (((langMap nodes).mergeSort langLe).drop 8).map Prod.fst := by
          rw [← List.map_append, List.take_append_drop]
        have hnd2 : ((((langMap nodes).mergeSort langLe).take 8).map Prod.fst
            ++ (((langMap nodes).mergeSort langLe).drop 8).map Prod.fst).Nodup := by
          rw [← hsplitEq]
          exact hnd
        have hSf2 : [n1, n2].Sublist ((((langMap nodes).mergeSort langLe).take 8).map Prod.fst
            ++ (((langMap nodes).mergeSort langLe).drop 8).map Prod.fst) := by
          rw [← hsplitEq]
          exact hSf
        rw [mapFst_fetchStatsLangs, sortedLangs]
        rw [mapFst_fetchStatsLangs, sortedLangs] at h1 h2
        exact pair_sublist_of_append
          ((((langMap nodes).mergeSort langLe).take 8).map Prod.fst)
          ((((langMap nodes).mergeSort langLe).drop 8).map Prod.fst)
          n1 n2 hnd2 hSf2 h1 h2

/-- Witness for C6 at a concrete tied two-language input. -/
theorem c6_sort_stable_witness :
    ["aa", "bb"].Sublist ((fetchStatsLangs [⟨0, [("aa", 5), ("bb", 5)]⟩]).map Prod.fst) :=
  c6_sort_stable [⟨0, [("aa", 5), ("bb", 5)]⟩] "aa" "bb" (by decide) (by decide)
    (by
      rw [mapFst_fetchStatsLangs, sortedLangs, List.mergeSort_of_sorted (by decide)]
      decide)
    (by
      rw [mapFst_fetchStatsLangs, sortedLangs, List.mergeSort_of_sorted (by decide)]
      decide)

/-! ## Claim C3 -/

/-- C3: with a zero grand total the percentage computation still divides
by a nonzero divisor (the `or 1` sentinel) and reports only zero
percentages, and the `svg_party` shares fall back to 100 and 0 when the
total commit count is zero. -/
theorem c3_division_safe (data : Option User) (h : grandTotal (statsNodes data) = 0) :
    langTotal (statsNodes data) ≠ 0 ∧
    (∀ p ∈ (fetchStats data).langs, p.2 = 0) ∧
    (∀ aiCount : Nat, svgPartyHeroPct 0 aiCount = 100 ∧ svgPartyAiPct 0 aiCount = 0) := by
  refine ⟨?_, ?_, ?_⟩
  · have := langTotal_pos (statsNodes data)
    omega
  · intro p hp
    have hlangs : (fetchStats data).langs = fetchStatsLangs (statsNodes data) := rfl
    rw [hlangs] at hp
    rcases output_entry _ p hp with ⟨q, hq, rfl, hval, hmem⟩
    have hsplit := grandTotal_sum_split (statsNodes data)
    have hkept : ((sortedLangs (statsNodes data)).map Prod.snd).sum = 0 := by omega
    have hq0 : q.2 = 0 :=
      List.sum_eq_zero_iff.mp hkept q.2 (List.mem_map_of_mem Prod.snd hq)
    simp [hq0]
  · intro aiCount
    constructor <;> simp [svgPartyHeroPct, svgPartyAiPct]

/-- Witness for C3 at a user whose only language edge has size zero. -/
theorem c3_division_safe_witness :
    grandTotal (statsNodes (some ⟨some ⟨1, [⟨0, [("Py", 0)]⟩]⟩, none, none⟩)) = 0 ∧
    langTotal (statsNodes (some ⟨some ⟨1, [⟨0, [("Py", 0)]⟩]⟩, none, none⟩)) ≠ 0 ∧
    svgPartyHeroPct 0 5 = 100 :=
  ⟨by decide,
   (c3_division_safe (some ⟨some ⟨1, [⟨0, [("Py", 0)]⟩]⟩, none, none⟩) (by decide)).1,
   ((c3_division_safe (some ⟨some ⟨1, [⟨0, [("Py", 0)]⟩]⟩, none, none⟩) (by decide)).2.2 5).1⟩

/-! ## Claim C7 -/

theorem strTake_length (s : String) (n : Nat) : (strTake s n).length ≤ n := by
  cases s with
  | mk data => simp [strTake, String.length, List.length_take]

/-- C7: the recent-activity list has at most 5 rows, and every row is
built from a commit of a push event: hash cut to 7 characters, message
cut to the first 44 characters of its first line, repository name
reduced to its final path segment, and the event timestamp attached. -/
theorem c7_events_bounded (events : List Event) :
    (fetchEvents (some events)).length ≤ 5 ∧
    ∀ row ∈ fetchEvents (some events), ∃ ev ∈ events, ev.type = "PushEvent" ∧
      ∃ cm ∈ ev.commits,
        row.sha = strTake cm.sha 7 ∧ row.sha.length ≤ 7 ∧
        row.repo = lastSegment ev.repoName ∧
        row.msg = strTake (firstLine cm.message) 44 ∧ row.msg.length ≤ 44 ∧
        row.ts = ev.createdAt := by
  constructor
  · simp only [fetchEvents]
    exact List.length_take_le _ _
  · intro row hrow
    simp only [fetchEvents] at hrow
    have hrow2 := List.mem_of_mem_take hrow
    rcases List.mem_flatMap.mp hrow2 with ⟨ev, hev, hrowin⟩
    rcases List.mem_filter.mp hev with ⟨hevents, htype⟩
    rcases List.mem_map.mp hrowin with ⟨cm, hcm, rfl⟩
    exact ⟨ev, hevents, by simpa using htype, cm, hcm, rfl, strTake_length _ _, rfl, rfl,
      strTake_length _ _, rfl⟩

/-- Witness for C7 at a one-event feed, discharging the row-membership
hypothesis at the produced row. -/
theorem c7_events_bounded_witness :
    (fetchEvents (some [⟨"PushEvent", "me/repo", [⟨"abcdef1234", "hello\nworld"⟩],
        "2025-01-01T00:00:00Z"⟩])).length ≤ 5 ∧
    (∃ ev ∈ [(⟨"PushEvent", "me/repo", [⟨"abcdef1234", "hello\nworld"⟩],
        "2025-01-01T00:00:00Z"⟩ : Event)], ev.type = "PushEvent" ∧
      ∃ cm ∈ ev.commits,
        (⟨"abcdef1", "repo", "hello", "2025-01-01T00:00:00Z"⟩ : EventRow).sha
            = strTake cm.sha 7 ∧
        (⟨"abcdef1", "repo", "hello", "2025-01-01T00:00:00Z"⟩ : EventRow).sha.length ≤ 7 ∧
        (⟨"abcdef1", "repo", "hello", "2025-01-01T00:00:00Z"⟩ : EventRow).repo
            = lastSegment ev.repoName ∧
        (⟨"abcdef1", "repo", "hello", "2025-01-01T00:00:00Z"⟩ : EventRow).msg
            = strTake (firstLine cm.message) 44 ∧
        (⟨"abcdef1", "repo", "hello", "2025-01-01T00:00:00Z"⟩ : EventRow).msg.length ≤ 44 ∧
        (⟨"abcdef1", "repo", "hello", "2025-01-01T00:00:00Z"⟩ : EventRow).ts
            = ev.createdAt) :=
  ⟨(c7_events_bounded [⟨"PushEvent", "me/repo", [⟨"abcdef1234", "hello\nworld"⟩],
      "2025-01-01T00:00:00Z"⟩]).1,
   (c7_events_bounded [⟨"PushEvent", "me/repo", [⟨"abcdef1234", "hello\nworld"⟩],
      "2025-01-01T00:00:00Z"⟩]).2
     ⟨"abcdef1", "repo", "hello", "2025-01-01T00:00:00Z"⟩ (by decide)⟩

/-! ## Claim C9 -/

theorem breakdownSum_addAssoc (m : List (String × Nat)) (k : String) (v : Nat) :
    breakdownSum (addAssoc m k v) = breakdownSum m + v :=
  sumSnd_addAssoc m k v

theorem aiFold_spec (reSearch : Nat → String → Bool) (cms : List Commit)
    (acc : Nat × Nat × List (String × Nat)) :
    (cms.foldl (aiStep reSearch) acc).1 = acc.1 + cms.length ∧
    (cms.foldl (aiStep reSearch) acc).2.1
      = acc.2.1 + cms.countP (fun cm => commitMatches reSearch cm.message) ∧
    breakdownSum (cms.foldl (aiStep reSearch) acc).2.2
      = breakdownSum acc.2.2 + cms.countP (fun cm => commitMatches reSearch cm.message) := by
  induction cms generalizing acc with
  | nil => simp
  | cons cm rest ih =>
    rw [List.foldl_cons]
    by_cases h : commitMatches reSearch cm.message
    · have hstep : aiStep reSearch acc cm
          = (acc.1 + 1, acc.2.1 + 1, addAssoc acc.2.2 (findAiName cm.message) 1) := by
        simp [aiStep, h]
      rw [hstep]
      rcases ih (acc.1 + 1, acc.2.1 + 1, addAssoc acc.2.2 (findAiName cm.message) 1)
        with ⟨ih1, ih2, ih3⟩
      refine ⟨?_, ?_, ?_⟩
      · rw [ih1, List.length_cons]
        omega
      · rw [ih2, List.countP_cons]
        simp [h]
        omega
      · rw [ih3, breakdownSum_addAssoc, List.countP_cons]
        simp [h]
        omega
    · have hstep : aiStep reSearch acc cm = (acc.1 + 1, acc.2.1, acc.2.2) := by
        simp [aiStep, h]
      rw [hstep]
      rcases ih (acc.1 + 1, acc.2.1, acc.2.2) with ⟨ih1, ih2, ih3⟩
      refine ⟨?_, ?_, ?_⟩
      · rw [ih1, List.length_cons]
        omega
      · rw [ih2, List.countP_cons]
        simp [h]
      · rw [ih3, List.countP_cons]
        simp [h]

theorem pushCommits_cons (ev : Event) (rest : List Event) :
    pushCommits (ev :: rest)
      = (if ev.type == "PushEvent" then ev.commits else []) ++ pushCommits rest := by
  rw [pushCommits, pushCommits, List.filter_cons]
  cases h : ev.type == "PushEvent" <;> simp [h]

theorem aiOuter_spec (reSearch : Nat → String → Bool) (events : List Event)
    (acc : Nat × Nat × List (String × Nat)) :
    (events.foldl (fun acc ev =>
        if ev.type == "PushEvent" then ev.commits.foldl (aiStep reSearch) acc else acc)
        acc).1 = acc.1 + (pushCommits events).length ∧
    (events.foldl (fun acc ev =>
        if ev.type == "PushEvent" then ev.commits.foldl (aiStep reSearch) acc else acc)
        acc).2.1
      = acc.2.1 + (pushCommits events).countP (fun cm => commitMatches reSearch cm.message) ∧
    breakdownSum (events.foldl (fun acc ev =>
        if ev.type == "PushEvent" then ev.commits.foldl (aiStep reSearch) acc else acc)
        acc).2.2
      = breakdownSum acc.2.2
        + (pushCommits events).countP (fun cm => commitMatches reSearch cm.message) := by
  induction events generalizing acc with
  | nil => simp [pushCommits]
  | cons ev rest ih =>
    rw [List.foldl_cons, pushCommits_cons]
    cases h : ev.type == "PushEvent"
    · simp only [h, Bool.false_eq_true, if_false, List.nil_append]
      exact ih acc
    · simp only [h, if_true, List.length_append, List.countP_append]
      rcases aiFold_spec reSearch ev.commits acc with ⟨hf1, hf2, hf3⟩
      rcases ih (ev.commits.foldl (aiStep reSearch) acc) with ⟨ih1, ih2, ih3⟩
      refine ⟨?_, ?_, ?_⟩
      · rw [ih1, hf1]
        omega
      · rw [ih2, hf2]
        omega
      · rw [ih3, hf3]
        omega

/-- C9: the AI tally counts every push-event commit once in the total,
counts a commit as AI exactly when one of the three patterns matches it
(so never more than once per commit), keeps the AI count at or below the
total, and distributes the AI count exactly over the per-tool
breakdown. -/
theorem c9_ai_tally (reSearch : Nat → String → Bool) (events : List Event) :
    (fetchAiRatio reSearch (some events)).1 = (pushCommits events).length ∧
    (fetchAiRatio reSearch (some events)).2.1
      = (pushCommits events).countP (fun cm => commitMatches reSearch cm.message) ∧
    breakdownSum (fetchAiRatio reSearch (some events)).2.2
      = (fetchAiRatio reSearch (some events)).2.1 ∧
    (fetchAiRatio reSearch (some events)).2.1 ≤ (fetchAiRatio reSearch (some events)).1 := by
  rcases aiOuter_spec reSearch events (0, 0, []) with ⟨h1, h2, h3⟩
  simp only [fetchAiRatio]
  refine ⟨by simpa using h1, by simpa using h2, ?_, ?_⟩
  · rw [h3, h2]
    simp [breakdownSum]
  · rw [h1, h2]
    simpa using List.countP_le_length _

/-! ## Claim C8 -/

/-- C8: a failed request leaves each fetcher at its zero default: the
all-zero stats record with empty language and week lists, the empty
events list, and the zero AI tally. -/
theorem c8_error_defaults :
    fetchStats none = ⟨0, 0, 0, 0, 0, 0, [], []⟩ ∧
    fetchEvents none = [] ∧
    ∀ reSearch, fetchAiRatio reSearch none = (0, 0, []) := by
  refine ⟨?_, rfl, fun r => rfl⟩
  simp [fetchStats, emptyUser, fetchStatsStreak, weekScan, fetchStatsLangs, sortedLangs,
    langMap, buildMap, langEdges, List.mergeSort_nil]

/-! ## Claim C10 -/

/-- C10: with an empty token the network thunk is never consulted (any
two thunks give the same result) and the output is exactly the fixed
placeholder data, whose calendar depends only on the constant-seeded
draw stream. -/
theorem c10_no_token_placeholder (net1 net2 : Unit → NetData) (rng : Nat → Nat) :
    mainData "" net1 rng = mainData "" net2 rng ∧
    mainData "" net1 rng = (placeholderStats rng, placeholderEvents, placeholderAi) := by
  constructor <;> rfl

/-! ## Claim C1 -/

/-- C1 (amended): the computed streak is the length of the most recent
maximal run of positive-count days, with trailing zero-count days
skipped rather than resetting the streak to zero. -/
theorem c1_streak_trailing (weeks : List Week) :
    fetchStatsStreak weeks = trailingRun (calCounts weeks) :=
  streak_eq_trailingRun weeks

/-- Counterexample to C1 as stated: the most recent day has no
contribution, yet the streak is 1, not 0, because the scan skips
trailing zero days. -/
theorem c1_counterexample :
    (calCounts [[("2024-01-01", 1), ("2024-01-02", 0)]]).getLast? = some 0 ∧
    fetchStatsStreak [[("2024-01-01", 1), ("2024-01-02", 0)]] = 1 := by
  constructor <;> rfl

/-! ## Claim C4 -/

/-- C4 (amended): the streak scan never looks at the date strings, so a
calendar-date gap neither stops nor resets it: the streak depends only
on the per-day counts. -/
theorem c4_dates_ignored (w1 w2 : List Week)
    (h : w1.map (fun w => w.map Prod.snd) = w2.map (fun w => w.map Prod.snd)) :
    fetchStatsStreak w1 = fetchStatsStreak w2 := by
  rw [streak_eq_trailingRun, streak_eq_trailingRun, calCounts, calCounts,
    List.map_flatten, List.map_flatten, h]

/-- Witness for C4: dates four days apart and adjacent dates give the
same streak. -/
theorem c4_dates_ignored_witness :
    fetchStatsStreak [[("2024-01-01", 1), ("2024-01-05", 1)]]
      = fetchStatsStreak [[("x", 1), ("y", 1)]] :=
  c4_dates_ignored [[("2024-01-01", 1), ("2024-01-05", 1)]] [[("x", 1), ("y", 1)]] rfl

/-- Counterexample to C4 as stated: two positive days whose dates are
four days apart still count as a streak of 2; the scan does not stop at
the date gap. -/
theorem c4_counterexample :
    fetchStatsStreak [[("2024-01-01", 1), ("2024-01-05", 1)]] = 2 := by
  rfl

end Profile
